import Mathlib

set_option maxHeartbeats 1000000

/-!
Verification of the openrouter-proxy core: a shallow embedding of
`src/keyManager.ts` (key rotation and cooldown state machine),
`src/utils.ts` (rate-limit signal extraction, free-model filtering,
access-key verification) and the SSE passthrough relay of
`src/routes.ts`.

Conventions of the embedding:
* Timestamps are `Nat` milliseconds since the epoch (`Date.getTime()`).
* The JS `Map<string, Date>` is an association list `List (String × Nat)`
  used through `mapGet` / `mapSet` / `mapDelete`; `mapSet` removes any
  existing entries for the key and conses the new one, which realizes the
  `Map` abstraction (`get`/`has`/`delete` and the multiset of values agree
  with JS `Map.set`; only the iteration order differs, and nothing in the
  translated code depends on that order, since the only iteration is the
  order-insensitive minimum taken in `minResume`).
* JSON values are the inductive `Json`; a parsed body is `Option Json`
  (`none` = `JSON.parse` threw). JS truthiness is `truthy`. Property
  access `o.k` / `o['k']` is `jsGet` (`none` = `undefined`; accessing a
  property of `null` throws in JS, but every such access in the
  translated code sits inside a `try` whose `catch` produces the same
  result as reading `undefined`, so `jsGet .null _ = none` is faithful).
* Async/lock plumbing of the single cooperative scheduler is not part of
  the state: each translated operation is the body of one critical
  section, and the sleeping branch of `getNextKey` becomes an explicit
  time-advancing recursion (`rounds` fuel).
-/

/-! ## Association-list model of `Map<string, Date>` -/

def mapGet (m : List (String × Nat)) (k : String) : Option Nat :=
  match m.find? (fun p => p.1 == k) with
  | some p => some p.2
  | none => none

def mapSet (m : List (String × Nat)) (k : String) (v : Nat) : List (String × Nat) :=
  (k, v) :: m.filter (fun p => p.1 != k)

def mapDelete (m : List (String × Nat)) (k : String) : List (String × Nat) :=
  m.filter (fun p => p.1 != k)

/-- Keys of the map are pairwise distinct (invariant of every map reachable
through `mapSet` / `mapDelete` from the empty map, mirroring JS `Map`). -/
def DistinctKeys (m : List (String × Nat)) : Prop :=
  m.Pairwise (fun p q => p.1 ≠ q.1)

/-! ## `KeyManager` state (`src/keyManager.ts`) -/

structure KMState where
  keys : List String
  currentIndex : Nat
  disabledUntil : List (String × Nat)

/-- `new Date(8640000000000000)`, the far-future initial accumulator of the
`reduce` that computes the soonest re-enable time (largest valid JS date). -/
def FAR_FUTURE : Nat := 8640000000000000

/-- `Array.from(this.disabledUntil.values()).reduce((earliest, current) =>
current < earliest ? current : earliest, new Date(8640000000000000))`. -/
def minResume (m : List (String × Nat)) : Nat :=
  m.foldl (fun earliest p => if p.2 < earliest then p.2 else earliest) FAR_FUTURE

/-- A credential is eligible at `now` when it has no `disabledUntil` entry or
its entry has passed (`new Date() >= disabledUntil`). -/
def isEligible (now : Nat) (m : List (String × Nat)) (k : String) : Bool :=
  match mapGet m k with
  | none => true
  | some t => decide (t ≤ now)

/-- The `for` loop of `KeyManager.getNextKey` (src/keyManager.ts:61-96): one
full rotation of at most `keys.length` candidates.  `fuel` is the remaining
loop iterations (`keys.length - i`).  Each step reads
`keys[currentIndex]`, advances `currentIndex` modulo the pool size, then
either skips a still-disabled candidate or selects it (clearing a stale
entry, and self-penalizing by `cooldownSeconds` when that parameter is
positive). Returns `none` when the rotation finds no eligible key. -/
def getNextKeyScan (now cooldownSeconds : Nat) : Nat → KMState → Option (String × KMState)
  | 0, _ => none
  | fuel + 1, st =>
    let key := st.keys.getD st.currentIndex ""
    let st1 : KMState := { st with currentIndex := (st.currentIndex + 1) % st.keys.length }
    match mapGet st1.disabledUntil key with
    | some t =>
      if now ≥ t then
        let cleared := mapDelete st1.disabledUntil key
        let withCd :=
          if cooldownSeconds > 0 then mapSet cleared key (now + cooldownSeconds * 1000)
          else cleared
        some (key, { st1 with disabledUntil := withCd })
      else
        getNextKeyScan now cooldownSeconds fuel st1
    | none =>
      let withCd :=
        if cooldownSeconds > 0 then mapSet st1.disabledUntil key (now + cooldownSeconds * 1000)
        else st1.disabledUntil
      some (key, { st1 with disabledUntil := withCd })

/-- `KeyManager.getNextKey` (src/keyManager.ts:47-129): run one rotation; if
no key is eligible, wait `Math.max(0, soonestAvailable - now)` ms and retry
recursively.  `rounds` is fuel bounding the number of retries (the source
recursion is unbounded; with no interleaved mutation one retry suffices, as
proved below).  The result carries the time at which the key was produced. -/
def getNextKey (cooldownSeconds : Nat) : Nat → Nat → KMState → Option (Nat × String × KMState)
  | 0, _, _ => none
  | rounds + 1, now, st =>
    match getNextKeyScan now cooldownSeconds st.keys.length st with
    | some (key, st') => some (now, key, st')
    | none =>
      let soonest := minResume st.disabledUntil
      let waitMs := soonest - now
      getNextKey cooldownSeconds rounds (now + waitMs) st

/-- The reset-time resolution of `KeyManager.disableKey`
(src/keyManager.ts:149-195).  `resetTimeMs = some 0` falls into the default
branch because `if (resetTimeMs)` is false for `0` in JS. -/
def resolveDisabledUntil (now cooldownSeconds : Nat) (resetTimeMs : Option Nat) : Nat :=
  match resetTimeMs with
  | some r =>
    if r ≠ 0 then
      let resetDatetime :=
        if r > now then r
        else if r > now / 1000 then r
        else r * 1000
      if resetDatetime > now then resetDatetime
      else now + cooldownSeconds * 1000
    else now + cooldownSeconds * 1000
  | none => now + cooldownSeconds * 1000

/-- `KeyManager.disableKey` (src/keyManager.ts:136-208): unconditionally
overwrite the penalty entry of `key` with the resolved resume time. -/
def disableKey (now cooldownSeconds : Nat) (key : String) (resetTimeMs : Option Nat)
    (st : KMState) : KMState :=
  { st with disabledUntil := mapSet st.disabledUntil key (resolveDisabledUntil now cooldownSeconds resetTimeMs) }

/-- A run of `n` Acquire calls (each `getNextKey` with the default
`cooldownSeconds = 0`, the only value used by callers) at a fixed instant,
threading the pool state; returns the keys in order of acquisition. -/
def acquireRun (now : Nat) : Nat → KMState → List String × KMState
  | 0, st => ([], st)
  | n + 1, st =>
    match getNextKey 0 1 now st with
    | some (_, k, st') =>
      let r := acquireRun now n st'
      (k :: r.1, r.2)
    | none => ([], st)

/-! ## JSON model (for `src/utils.ts`) -/

inductive Json where
  | null
  | bool (b : Bool)
  | num (n : Int)
  | str (s : String)
  | arr (elems : List Json)
  | obj (fields : List (String × Json))

/-- First binding of `k` in an object's field list (JSON.parse never yields
duplicate keys in its result object). -/
def lookupField : List (String × Json) → String → Option Json
  | [], _ => none
  | (k', v) :: rest, k => if k' == k then some v else lookupField rest k

/-- JS property read `o[k]`: `undefined` (= `none`) on non-objects. -/
def jsGet : Json → String → Option Json
  | .obj fields, k => lookupField fields k
  | _, _ => none

/-- JS property write `o[k] = v` on an object (no-op otherwise). -/
def jsSet : Json → String → Json → Json
  | .obj fields, k, v => .obj (fields.map (fun p => if p.1 == k then (k, v) else p))
  | j, _, _ => j

/-- JS truthiness of a JSON value. -/
def truthy : Json → Bool
  | .null => false
  | .bool b => b
  | .num n => n != 0
  | .str s => s != ""
  | .arr _ => true
  | .obj _ => true

/-- `typeof v === 'object'` for a JSON value (`null` and arrays included). -/
def typeofIsObject : Json → Bool
  | .obj _ => true
  | .arr _ => true
  | .null => true
  | _ => false

/-- Does the character sequence `pat` occur contiguously in `l`
(JS `String.prototype.includes`)? -/
def listContainsSeq (pat : List Char) : List Char → Bool
  | [] => pat.isEmpty
  | c :: cs => pat.isPrefixOf (c :: cs) || listContainsSeq pat cs

def strIncludes (s pat : String) : Bool :=
  listContainsSeq pat.data s.data

/-- `parseInt(s, 10)`: skip leading whitespace, optional sign, then a
nonempty maximal digit run; `none` models `NaN`. -/
def parseIntNatPart (cs : List Char) : Option Nat :=
  let ds := cs.takeWhile Char.isDigit
  if ds.isEmpty then none
  else some (ds.foldl (fun a c => a * 10 + (c.toNat - 48)) 0)

def parseIntStr (s : String) : Option Int :=
  let cs := s.data.dropWhile Char.isWhitespace
  match cs with
  | '-' :: rest => (parseIntNatPart rest).map (fun n => -(n : Int))
  | '+' :: rest => (parseIntNatPart rest).map (fun n => (n : Int))
  | _ => (parseIntNatPart cs).map (fun n => (n : Int))

/-- `parseInt(v, 10)` applied to a JSON header value, as the source does at
src/utils.ts:107.  Numbers print and re-parse to themselves; `true`,
`false` and `null` stringify to words that parse to `NaN` (`none`).
Arrays/objects (never header values in practice) are approximated as `NaN`;
the difference is unobservable for every property below. -/
def parseIntJS : Json → Option Int
  | .num n => some n
  | .str s => parseIntStr s
  | _ => none

/-- `e.type === 'rate_limit_exceeded' || e.code === 'rate_limit_exceeded'`
guarded by `typeof e === 'object'` (src/utils.ts:75-77). -/
def isRateLimitObj (e : Json) : Bool :=
  typeofIsObject e &&
    ((match jsGet e "type" with
      | some (.str s) => s == "rate_limit_exceeded"
      | _ => false) ||
     (match jsGet e "code" with
      | some (.str s) => s == "rate_limit_exceeded"
      | _ => false))

/-- `typeof e === 'string' && (e.includes('rate limit') || …)`
(src/utils.ts:79-82). -/
def isRateLimitStr (e : Json) : Bool :=
  match e with
  | .str s =>
    strIncludes s "rate limit" || strIncludes s "rate_limit" ||
      strIncludes s "too many requests"
  | _ => false

/-- JS `a || b` where `a` may be `undefined` (`none`): keeps `a` only when
it is defined and truthy. -/
def jsOr (a b : Option Json) : Option Json :=
  match a with
  | some v => if truthy v then some v else b
  | none => b

/-- `h['x-ratelimit-reset-requests'] || h['x-ratelimit-reset-tokens'] ||
h['x-ratelimit-reset'] || undefined` (src/utils.ts:92-95 and 100-103). -/
def rlHeaderChain (h : Json) : Option Json :=
  jsOr (jsGet h "x-ratelimit-reset-requests")
    (jsOr (jsGet h "x-ratelimit-reset-tokens")
      (jsOr (jsGet h "x-ratelimit-reset") none))

/-- `checkRateLimit` (src/utils.ts:61-117) on an already-parsed body:
`none` is a body `JSON.parse` rejected (the `catch` path).  Result `.2` is
the extracted reset time, with `none` for `undefined`/`NaN`. -/
def checkRateLimit (body : Option Json) : Bool × Option Int :=
  match body with
  | none => (false, none)
  | some bodyObj =>
    match jsGet bodyObj "error" with
    | none => (false, none)
    | some err =>
      if truthy err && (isRateLimitObj err || isRateLimitStr err) then
        let fromErr : Option Json :=
          match jsGet err "headers" with
          | some hs => if truthy hs then rlHeaderChain hs else none
          | none => none
        let resetRaw : Option Json :=
          match fromErr with
          | some v => some v
          | none =>
            match jsGet bodyObj "headers" with
            | some hs => if truthy hs then rlHeaderChain hs else none
            | none => none
        match resetRaw with
        | some v => (true, parseIntJS v)
        | none => (true, none)
      else (false, none)

/-! ## `removePaidModels` (src/utils.ts:122-152) -/

def pricingKeys : List String :=
  ["prompt", "completion", "request", "image", "web_search", "internal_reasoning"]

/-- The value of `model.pricing && prices.every(k => model.pricing[k] === '0')`
(src/utils.ts:136-137) for a descriptor on which reading `model.pricing`
does not throw.  When `pricing` is falsy the `&&` short-circuits before any
`model.pricing[k]` read, so no element read can throw here. -/
def isFreeModelBody (model : Json) : Bool :=
  match jsGet model "pricing" with
  | some pricing =>
    truthy pricing && pricingKeys.all (fun k =>
      match jsGet pricing k with
      | some (.str s) => s == "0"
      | _ => false)
  | none => false

/-- One iteration of the `for (const model of data.data)` loop body: reading
`model.pricing` on a `null` descriptor throws a TypeError (`none`); any
other descriptor evaluates the guard-and-every condition. -/
def isFreeModel : Json → Option Bool
  | .null => none
  | model => some (isFreeModelBody model)

/-- The loop building `clearData` (src/utils.ts:133-140): push each
descriptor passing the pricing test; a thrown TypeError aborts the whole
loop (`none`), to be caught by the enclosing `catch`. -/
def filterFreeModels : List Json → Option (List Json)
  | [] => some []
  | model :: rest =>
    match isFreeModel model with
    | none => none
    | some keep =>
      match filterFreeModels rest with
      | none => none
      | some tail => some (if keep then model :: tail else tail)

/-- `removePaidModels` on a parsed body (`none` = unparsable, the `catch`
path returning the original body; a TypeError thrown inside the filter loop
is caught by the same `catch` and also returns the original body).
`freeOnly` is `config.openrouter.free_only`. -/
def removePaidModels (freeOnly : Bool) (body : Option Json) : Option Json :=
  if !freeOnly then body
  else
    match body with
    | none => body
    | some data =>
      match jsGet data "data" with
      | some (Json.arr models) =>
        match filterFreeModels models with
        | none => body
        | some clearData =>
          if clearData.length > 0 then some (jsSet data "data" (Json.arr clearData))
          else body
      | _ => body

/-! ## `verifyAccessKey` (src/utils.ts:30-55) -/

/-- The capture of `/^Bearer\s+(\S+)$/i` applied to the header value:
a case-insensitive `Bearer`, at least one whitespace, then a nonempty
whitespace-free token reaching the end of the string. -/
def bearerToken (authorization : String) : Option String :=
  let cs := authorization.data
  if (cs.take 6).map Char.toLower ≠ "bearer".data then none
  else
    let rest := cs.drop 6
    let ws := rest.takeWhile Char.isWhitespace
    let tok := rest.dropWhile Char.isWhitespace
    if ws.length == 0 then none
    else if tok.length == 0 then none
    else if tok.any Char.isWhitespace then none
    else some (String.mk tok)

/-- `verifyAccessKey`; thrown errors are the `Except.error` branch, carrying
the source's message.  A present-but-empty header is falsy in JS and takes
the missing-header branch. -/
def verifyAccessKey (accessKey : String) (authorization : Option String) : Except String Bool :=
  if accessKey == "" then Except.ok true
  else
    match authorization with
    | none => Except.error "缺少授權標頭"
    | some a =>
      if a == "" then Except.error "缺少授權標頭"
      else
        match bearerToken a with
        | none => Except.error "無效的授權標頭格式"
        | some token =>
          if token != accessKey then Except.error "無效的訪問金鑰"
          else Except.ok true

/-! ## Route prelude (src/routes.ts:65-128): public check, access
verification, key acquisition -/

/-- JS `String.prototype.startsWith` (on ASCII input). -/
def strStartsWith (s pat : String) : Bool := pat.data.isPrefixOf s.data

inductive RouteOutcome where
  | unauthorized (message : String)
  | acquired (key : String)
  | suspended

/-- The prefix of the `/api/v1/*` handler up to and including key
acquisition: classify the path against `public_endpoints`, verify access
for non-public paths (responding 401 on failure, without touching the
pool), then acquire a key (`getNextKey()` with default cooldown 0; public
paths use the empty key and skip acquisition).  `suspended` stands for an
acquisition that is still waiting when the `rounds` fuel runs out. -/
def handleAuthAndAcquire (accessKey : String) (publicEndpoints : List String)
    (path : String) (authorization : Option String) (now rounds : Nat)
    (st : KMState) : RouteOutcome × KMState :=
  let isPublic := publicEndpoints.any (fun ep => strStartsWith ("/api/v1/" ++ path) ep)
  if isPublic then (RouteOutcome.acquired "", st)
  else
    match verifyAccessKey accessKey authorization with
    | Except.error msg => (RouteOutcome.unauthorized msg, st)
    | Except.ok _ =>
      match getNextKey 0 rounds now st with
      | some (_, key, st') => (RouteOutcome.acquired key, st')
      | none => (RouteOutcome.suspended, st)

/-! ## SSE passthrough relay (src/routes.ts:442-477) -/

structure RelayState where
  buffer : String
  writes : List String

def strTake (s : String) (n : Nat) : String := String.mk (s.data.take n)

def strDrop (s : String) (n : Nat) : String := String.mk (s.data.drop n)

/-- Index of the first occurrence of `pat` in the character list
(JS `String.prototype.indexOf`, on ASCII input). -/
def indexOfAux (pat : List Char) : List Char → Option Nat
  | [] => none
  | c :: cs =>
    if pat.isPrefixOf (c :: cs) then some 0
    else (indexOfAux pat cs).map (· + 1)

def strIndexOf (s pat : String) : Option Nat :=
  indexOfAux pat.data s.data

/-- JS `String.prototype.trimStart`. -/
def jsTrimStart (s : String) : String := String.mk (s.data.dropWhile Char.isWhitespace)

/-- The `while ((idx = buffer.indexOf('\n\n')) !== -1)` loop
(src/routes.ts:457-467): emit and remove each complete frame.  `fuel` is at
least the buffer length at entry, which bounds the iterations since each
one removes `idx + 2 ≥ 2` characters. -/
def sseDrain : Nat → RelayState → RelayState
  | 0, st => st
  | fuel + 1, st =>
    match strIndexOf st.buffer "\n\n" with
    | none => st
    | some idx =>
      let message := strTake st.buffer (idx + 2)
      let rest := strDrop st.buffer (idx + 2)
      sseDrain fuel { buffer := rest, writes := st.writes ++ [message] }

/-- The `'data'` handler (src/routes.ts:443-468): append the chunk to the
buffer; if the chunk is an SSE comment (first non-blank char `:`), forward
it immediately and return; otherwise drain complete frames. -/
def onDataChunk (st : RelayState) (chunkStr : String) : RelayState :=
  let st1 : RelayState := { st with buffer := st.buffer ++ chunkStr }
  if strStartsWith (jsTrimStart chunkStr) ":" then
    { st1 with writes := st1.writes ++ [chunkStr] }
  else
    sseDrain st1.buffer.length st1

/-- The `'end'` handler (src/routes.ts:471-477): flush a nonempty remainder. -/
def onEnd (st : RelayState) : RelayState :=
  if st.buffer.length > 0 then { st with writes := st.writes ++ [st.buffer] }
  else st

/-- All `res.write` payloads produced by relaying the given upstream chunks
followed by upstream completion. -/
def relayRun (chunks : List String) : List String :=
  (onEnd (chunks.foldl onDataChunk { buffer := "", writes := [] })).writes

/-! ## Claim-side specification definitions (written from the spec's words,
for comparison against the source-derived definitions above) -/

/-- The resume-time resolution as the claim words it: values exceeding the
current epoch-in-milliseconds are milliseconds; values above the current
epoch-in-seconds (but not above epoch-in-milliseconds) are also
milliseconds; smaller values are seconds (multiplied by 1000); an instant
not strictly in the future falls back to `now + defaultCooldownSeconds`. -/
def resumeAtClaim (now cooldownSeconds : Nat) (hint : Option Nat) : Nat :=
  match hint with
  | none => now + cooldownSeconds * 1000
  | some r =>
    let instant := if r > now then r else if r > now / 1000 then r else r * 1000
    if instant > now then instant else now + cooldownSeconds * 1000

/-- The first *present* (not necessarily truthy) raw value among the fixed
header names, as claim C7 words it. -/
def firstPresentHeader (h : Json) : Option Json :=
  match jsGet h "x-ratelimit-reset-requests" with
  | some v => some v
  | none =>
    match jsGet h "x-ratelimit-reset-tokens" with
    | some v => some v
    | none => jsGet h "x-ratelimit-reset"

/-- Claim C7's stated resumeAt: the first present raw header value, checked
first on the error object's own header map, then on the top-level map. -/
def claimResumeAtRaw (bodyObj : Json) : Option Json :=
  let fromErr :=
    match jsGet bodyObj "error" with
    | some err =>
      match jsGet err "headers" with
      | some hs => firstPresentHeader hs
      | none => none
    | none => none
  match fromErr with
  | some v => some v
  | none =>
    match jsGet bodyObj "headers" with
    | some hs => firstPresentHeader hs
    | none => none

def rlHeaderNames : List String :=
  ["x-ratelimit-reset-requests", "x-ratelimit-reset-tokens", "x-ratelimit-reset"]

/-- The amended resumeAt rule: the first JS-truthy value among the fixed
header names (present-but-falsy values are skipped). -/
def firstTruthyHeader (h : Json) : Option Json :=
  rlHeaderNames.foldr (fun name acc =>
    match jsGet h name with
    | some v => if truthy v then some v else acc
    | none => acc) none

/-- The amended claim-C7 resumeAt: `parseInt` of the first JS-truthy raw
value, error-object header map first, then top-level. -/
def amendedResumeAt (bodyObj err : Json) : Option Int :=
  let raw :=
    match (match jsGet err "headers" with
           | some hs => if truthy hs then firstTruthyHeader hs else none
           | none => none) with
    | some v => some v
    | none =>
      match jsGet bodyObj "headers" with
      | some hs => if truthy hs then firstTruthyHeader hs else none
      | none => none
  match raw with
  | some v => parseIntJS v
  | none => none

/-- Claim C8's filter predicate: the descriptor's pricing fields are all the
zero value (the `"0"` of the §8 example). -/
def allPricingZero (model : Json) : Bool :=
  match jsGet model "pricing" with
  | some pricing =>
    pricingKeys.all (fun k =>
      match jsGet pricing k with
      | some (.str s) => s == "0"
      | _ => false)
  | none => false

/-- The error object of the C7 counterexample body. -/
def c7Err : Json :=
  Json.obj [
    ("type", Json.str "rate_limit_exceeded"),
    ("headers", Json.obj [
      ("x-ratelimit-reset-requests", Json.num 0),
      ("x-ratelimit-reset-tokens", Json.num 30)])]

/-- A rate-limited body whose first present reset header holds `0` and whose
second holds `30`. -/
def c7Body : Json := Json.obj [("error", c7Err)]

/-- The §8 catalog-filter example: an all-zero-priced descriptor followed by
a paid one. -/
def c8FreeModel : Json :=
  Json.obj [("pricing", Json.obj [
    ("prompt", Json.str "0"), ("completion", Json.str "0"),
    ("request", Json.str "0"), ("image", Json.str "0"),
    ("web_search", Json.str "0"), ("internal_reasoning", Json.str "0")])]

def c8PaidModel : Json :=
  Json.obj [("pricing", Json.obj [
    ("prompt", Json.str "1"), ("completion", Json.str "0"),
    ("request", Json.str "0"), ("image", Json.str "0"),
    ("web_search", Json.str "0"), ("internal_reasoning", Json.str "0")])]

def c8Example : Json := Json.obj [("data", Json.arr [c8FreeModel, c8PaidModel])]

/-- A model-list body whose second descriptor is `null`: iterating it makes
the source throw on `model.pricing` and return the original body. -/
def c8NullExample : Json := Json.obj [("data", Json.arr [c8FreeModel, Json.null])]

/-! ## Lemmas about the map model -/

theorem find?_filter_ne (m : List (String × Nat)) (k k' : String) (h : k' ≠ k) :
    (m.filter (fun p => p.1 != k)).find? (fun p => p.1 == k') =
      m.find? (fun p => p.1 == k') := by
  induction m with
  | nil => rfl
  | cons p rest ih =>
    by_cases hpk : p.1 = k
    · have h1 : (p.1 != k) = false := by simp [hpk]
      have h2 : (p.1 == k') = false := by
        simp only [beq_eq_false_iff_ne, ne_eq, hpk]
        exact fun e => h e.symm
      simp only [List.filter_cons, h1, Bool.false_eq_true, if_false,
        List.find?_cons, h2, ih]
    · have h1 : (p.1 != k) = true := by simp [hpk]
      by_cases hpk' : p.1 = k'
      · have h2 : (p.1 == k') = true := by simp [hpk']
        simp only [List.filter_cons, h1, if_true, List.find?_cons, h2]
      · have h2 : (p.1 == k') = false := by simp [hpk']
        simp only [List.filter_cons, h1, if_true, List.find?_cons, h2, ih]

theorem find?_filter_self (m : List (String × Nat)) (k : String) :
    (m.filter (fun p => p.1 != k)).find? (fun p => p.1 == k) = none := by
  induction m with
  | nil => rfl
  | cons p rest ih =>
    by_cases hpk : p.1 = k
    · have h1 : (p.1 != k) = false := by simp [hpk]
      simp only [List.filter_cons, h1, Bool.false_eq_true, if_false, ih]
    · have h1 : (p.1 != k) = true := by simp [hpk]
      have h2 : (p.1 == k) = false := by simp [hpk]
      simp only [List.filter_cons, h1, if_true, List.find?_cons, h2, ih]

theorem mapGet_mapSet_self (m : List (String × Nat)) (k : String) (v : Nat) :
    mapGet (mapSet m k v) k = some v := by
  simp [mapGet, mapSet, List.find?_cons]

theorem mapGet_mapSet_ne (m : List (String × Nat)) (k k' : String) (v : Nat)
    (h : k' ≠ k) : mapGet (mapSet m k v) k' = mapGet m k' := by
  have h2 : (k == k') = false := by
    simp only [beq_eq_false_iff_ne, ne_eq]
    exact fun e => h e.symm
  simp only [mapGet, mapSet, List.find?_cons, h2]
  rw [find?_filter_ne m k k' h]

theorem mapGet_mapDelete_self (m : List (String × Nat)) (k : String) :
    mapGet (mapDelete m k) k = none := by
  have h := find?_filter_self m k
  simp only [mapGet, mapDelete, h]

theorem mapGet_mapDelete_ne (m : List (String × Nat)) (k k' : String)
    (h : k' ≠ k) : mapGet (mapDelete m k) k' = mapGet m k' := by
  simp only [mapGet, mapDelete]
  rw [find?_filter_ne m k k' h]

theorem mapGet_of_mem_distinct (m : List (String × Nat)) (p : String × Nat)
    (hd : DistinctKeys m) (hm : p ∈ m) : mapGet m p.1 = some p.2 := by
  induction m with
  | nil => cases hm
  | cons q rest ih =>
    rcases List.mem_cons.mp hm with h | h
    · subst h
      simp [mapGet, List.find?_cons]
    · have hne : q.1 ≠ p.1 := (List.pairwise_cons.mp hd).1 p h
      have h2 : (q.1 == p.1) = false := by simp [hne]
      have := ih ((List.pairwise_cons.mp hd).2) h
      simpa [mapGet, List.find?_cons, h2] using this

theorem mapGet_some_mem (m : List (String × Nat)) (k : String) (t : Nat)
    (h : mapGet m k = some t) : (k, t) ∈ m := by
  induction m with
  | nil => simp [mapGet] at h
  | cons p rest ih =>
    obtain ⟨p1, p2⟩ := p
    by_cases hpk : p1 = k
    · have h2 : ((p1, p2).1 == k) = true := by simp [hpk]
      simp only [mapGet, List.find?_cons, h2] at h
      have : p2 = t := by simpa using h
      subst hpk this
      exact List.mem_cons_self _ _
    · have h2 : ((p1, p2).1 == k) = false := by simp [hpk]
      simp only [mapGet, List.find?_cons, h2] at h
      exact List.mem_cons_of_mem _ (ih h)

/-! ## Lemmas about `minResume` -/

theorem foldl_min_le_init (m : List (String × Nat)) :
    ∀ init : Nat,
      m.foldl (fun earliest p => if p.2 < earliest then p.2 else earliest) init ≤ init := by
  induction m with
  | nil => intro init; exact Nat.le_refl _
  | cons p rest ih =>
    intro init
    simp only [List.foldl_cons]
    by_cases hp : p.2 < init
    · rw [if_pos hp]
      exact Nat.le_trans (ih p.2) (Nat.le_of_lt hp)
    · rw [if_neg hp]
      exact ih init

theorem foldl_min_le_mem (m : List (String × Nat)) (q : String × Nat) (hq : q ∈ m) :
    ∀ init : Nat,
      m.foldl (fun earliest p => if p.2 < earliest then p.2 else earliest) init ≤ q.2 := by
  induction m with
  | nil => cases hq
  | cons p rest ih =>
    intro init
    simp only [List.foldl_cons]
    rcases List.mem_cons.mp hq with h | h
    · subst h
      by_cases hp : q.2 < init
      · rw [if_pos hp]
        exact foldl_min_le_init rest q.2
      · rw [if_neg hp]
        exact Nat.le_trans (foldl_min_le_init rest init) (Nat.le_of_not_lt hp)
    · exact ih h _

theorem foldl_min_init_or_mem (m : List (String × Nat)) :
    ∀ init : Nat,
      m.foldl (fun earliest p => if p.2 < earliest then p.2 else earliest) init = init ∨
        ∃ q ∈ m, m.foldl (fun earliest p => if p.2 < earliest then p.2 else earliest) init = q.2 := by
  induction m with
  | nil => intro init; exact Or.inl rfl
  | cons p rest ih =>
    intro init
    simp only [List.foldl_cons]
    rcases ih (if p.2 < init then p.2 else init) with h | ⟨q, hq, h⟩
    · by_cases hp : p.2 < init
      · right
        exact ⟨p, List.mem_cons_self _ _, by rw [h, if_pos hp]⟩
      · left
        rw [h, if_neg hp]
    · right
      exact ⟨q, List.mem_cons_of_mem _ hq, h⟩

theorem minResume_le_mem (m : List (String × Nat)) (q : String × Nat) (hq : q ∈ m) :
    minResume m ≤ q.2 :=
  foldl_min_le_mem m q hq FAR_FUTURE

theorem minResume_attained (m : List (String × Nat)) (hne : m ≠ [])
    (hbound : ∀ p ∈ m, p.2 ≤ FAR_FUTURE) :
    ∃ q ∈ m, minResume m = q.2 := by
  rcases foldl_min_init_or_mem m FAR_FUTURE with h | h
  · obtain ⟨q, hq⟩ := List.exists_mem_of_ne_nil m hne
    refine ⟨q, hq, ?_⟩
    have h1 := minResume_le_mem m q hq
    have h2 := hbound q hq
    unfold minResume at h1 ⊢
    omega
  · exact h

/-! ## Step equations for `getNextKeyScan` -/

theorem getNextKeyScan_zero (now cd : Nat) (st : KMState) :
    getNextKeyScan now cd 0 st = none := rfl

theorem getNextKeyScan_skip (now cd fuel : Nat) (st : KMState) (t : Nat)
    (hm : mapGet st.disabledUntil (st.keys.getD st.currentIndex "") = some t)
    (hlt : now < t) :
    getNextKeyScan now cd (fuel + 1) st =
      getNextKeyScan now cd fuel
        ⟨st.keys, (st.currentIndex + 1) % st.keys.length, st.disabledUntil⟩ := by
  simp only [getNextKeyScan, hm]
  rw [if_neg (by omega)]

theorem getNextKeyScan_select_stale (now cd fuel : Nat) (st : KMState) (t : Nat)
    (hm : mapGet st.disabledUntil (st.keys.getD st.currentIndex "") = some t)
    (hle : t ≤ now) :
    getNextKeyScan now cd (fuel + 1) st =
      some (st.keys.getD st.currentIndex "",
        ⟨st.keys, (st.currentIndex + 1) % st.keys.length,
          if cd > 0 then
            mapSet (mapDelete st.disabledUntil (st.keys.getD st.currentIndex ""))
              (st.keys.getD st.currentIndex "") (now + cd * 1000)
          else mapDelete st.disabledUntil (st.keys.getD st.currentIndex "")⟩) := by
  simp only [getNextKeyScan, hm]
  rw [if_pos (by omega)]

theorem getNextKeyScan_select_fresh (now cd fuel : Nat) (st : KMState)
    (hm : mapGet st.disabledUntil (st.keys.getD st.currentIndex "") = none) :
    getNextKeyScan now cd (fuel + 1) st =
      some (st.keys.getD st.currentIndex "",
        ⟨st.keys, (st.currentIndex + 1) % st.keys.length,
          if cd > 0 then
            mapSet st.disabledUntil (st.keys.getD st.currentIndex "") (now + cd * 1000)
          else st.disabledUntil⟩) := by
  simp only [getNextKeyScan, hm]

/-! ## Rotation lemmas for `getNextKeyScan` -/

/-- A failed rotation means every candidate examined (the `fuel` successive
indices starting at `currentIndex`) is still disabled. -/
theorem scan_none_disabled (now cd : Nat) :
    ∀ (fuel : Nat) (st : KMState), st.currentIndex < st.keys.length →
      getNextKeyScan now cd fuel st = none →
      ∀ i < fuel,
        isEligible now st.disabledUntil
          (st.keys.getD ((st.currentIndex + i) % st.keys.length) "") = false := by
  intro fuel
  induction fuel with
  | zero => intro st _ _ i hi; omega
  | succ f ih =>
    intro st hcur hnone i hi
    have hN : 0 < st.keys.length := Nat.lt_of_le_of_lt (Nat.zero_le _) hcur
    cases hm : mapGet st.disabledUntil (st.keys.getD st.currentIndex "") with
    | none =>
      rw [getNextKeyScan_select_fresh now cd f st hm] at hnone
      cases hnone
    | some t =>
      by_cases hge : t ≤ now
      · rw [getNextKeyScan_select_stale now cd f st t hm hge] at hnone
        cases hnone
      · have hlt : now < t := Nat.lt_of_not_le hge
        rw [getNextKeyScan_skip now cd f st t hm hlt] at hnone
        match i with
        | 0 =>
          rw [Nat.add_zero, Nat.mod_eq_of_lt hcur]
          unfold isEligible
          rw [hm]
          simp [hge]
        | i' + 1 =>
          have hcur' : (st.currentIndex + 1) % st.keys.length < st.keys.length :=
            Nat.mod_lt _ hN
          have h := ih ⟨st.keys, (st.currentIndex + 1) % st.keys.length, st.disabledUntil⟩
            hcur' hnone i' (by omega)
          simp only at h
          rwa [Nat.mod_add_mod, Nat.add_assoc, Nat.add_comm 1 i'] at h

/-- Every index below the pool size is reached by some offset below the pool
size from any in-range cursor. -/
theorem rotation_reaches (c j N : Nat) (hc : c < N) (hj : j < N) :
    ∃ i, i < N ∧ (c + i) % N = j := by
  by_cases hle : c ≤ j
  · refine ⟨j - c, by omega, ?_⟩
    have h1 : c + (j - c) = j := by omega
    rw [h1, Nat.mod_eq_of_lt hj]
  · refine ⟨N + j - c, by omega, ?_⟩
    have h1 : c + (N + j - c) = N + j := by omega
    rw [h1, Nat.add_mod_left, Nat.mod_eq_of_lt hj]

/-- A failed full rotation means every key in the pool is still disabled. -/
theorem scan_none_all_disabled (now cd : Nat) (st : KMState)
    (hcur : st.currentIndex < st.keys.length)
    (hnone : getNextKeyScan now cd st.keys.length st = none) :
    ∀ j < st.keys.length, isEligible now st.disabledUntil (st.keys.getD j "") = false := by
  intro j hj
  obtain ⟨i, hi, hij⟩ := rotation_reaches st.currentIndex j st.keys.length hcur hj
  have h := scan_none_disabled now cd st.keys.length st hcur hnone i hi
  rwa [hij] at h

/-- A successful rotation returns a key of the pool that is eligible now,
after examining `m` skipped candidates: the selected key sits `m` steps past
the entry cursor and the final cursor is one past it (each examined
candidate having advanced the cursor by one modulo the pool size). -/
theorem scan_some_spec (now cd : Nat) :
    ∀ (fuel : Nat) (st : KMState) (k : String) (st' : KMState),
      st.currentIndex < st.keys.length →
      getNextKeyScan now cd fuel st = some (k, st') →
      k ∈ st.keys ∧ isEligible now st.disabledUntil k = true ∧
        st'.keys = st.keys ∧
        ∃ m, m < fuel ∧
          k = st.keys.getD ((st.currentIndex + m) % st.keys.length) "" ∧
          st'.currentIndex = (st.currentIndex + m + 1) % st.keys.length := by
  intro fuel
  induction fuel with
  | zero => intro st k st' _ h; cases h
  | succ f ih =>
    intro st k st' hcur hsome
    have hN : 0 < st.keys.length := Nat.lt_of_le_of_lt (Nat.zero_le _) hcur
    have hk0 : st.keys.getD st.currentIndex "" ∈ st.keys := by
      rw [List.getD_eq_getElem?_getD, List.getElem?_eq_getElem hcur]
      exact List.getElem_mem _
    cases hm : mapGet st.disabledUntil (st.keys.getD st.currentIndex "") with
    | none =>
      rw [getNextKeyScan_select_fresh now cd f st hm] at hsome
      rw [Option.some.injEq, Prod.mk.injEq] at hsome
      obtain ⟨hk, hst'⟩ := hsome
      subst hk
      subst hst'
      refine ⟨hk0, ?_, rfl, 0, by omega, ?_, ?_⟩
      · unfold isEligible
        rw [hm]
      · rw [Nat.add_zero, Nat.mod_eq_of_lt hcur]
      · simp
    | some t =>
      by_cases hge : t ≤ now
      · rw [getNextKeyScan_select_stale now cd f st t hm hge] at hsome
        rw [Option.some.injEq, Prod.mk.injEq] at hsome
        obtain ⟨hk, hst'⟩ := hsome
        subst hk
        subst hst'
        refine ⟨hk0, ?_, rfl, 0, by omega, ?_, ?_⟩
        · unfold isEligible
          rw [hm]
          simp [hge]
        · rw [Nat.add_zero, Nat.mod_eq_of_lt hcur]
        · simp
      · have hlt : now < t := Nat.lt_of_not_le hge
        rw [getNextKeyScan_skip now cd f st t hm hlt] at hsome
        have hcur' : (st.currentIndex + 1) % st.keys.length < st.keys.length :=
          Nat.mod_lt _ hN
        obtain ⟨hmem, helig, hkeys, m, hmf, hkm, hcm⟩ :=
          ih ⟨st.keys, (st.currentIndex + 1) % st.keys.length, st.disabledUntil⟩ k st'
            hcur' hsome
        simp only at hmem helig hkeys hkm hcm
        refine ⟨hmem, helig, hkeys, m + 1, by omega, ?_, ?_⟩
        · rw [hkm, Nat.mod_add_mod]
          have he : st.currentIndex + 1 + m = st.currentIndex + (m + 1) := by omega
          rw [he]
        · rw [hcm, Nat.add_assoc, Nat.mod_add_mod]
          have he : st.currentIndex + 1 + (m + 1) = st.currentIndex + (m + 1) + 1 := by omega
          rw [he]

/-- While a credential's penalty entry lies in the future, a rotation never
selects it, and the entry survives the rotation's state updates. -/
theorem scan_disabled_avoided (now cd : Nat) (c : String) (T : Nat) :
    ∀ (fuel : Nat) (st : KMState) (k : String) (st' : KMState),
      mapGet st.disabledUntil c = some T → now < T →
      getNextKeyScan now cd fuel st = some (k, st') →
      k ≠ c ∧ mapGet st'.disabledUntil c = some T := by
  intro fuel
  induction fuel with
  | zero => intro st k st' _ _ h; cases h
  | succ f ih =>
    intro st k st' hc hT hsome
    cases hm : mapGet st.disabledUntil (st.keys.getD st.currentIndex "") with
    | none =>
      rw [getNextKeyScan_select_fresh now cd f st hm] at hsome
      rw [Option.some.injEq, Prod.mk.injEq] at hsome
      obtain ⟨hk, hst'⟩ := hsome
      subst hk
      subst hst'
      have hkc : st.keys.getD st.currentIndex "" ≠ c := by
        intro e
        rw [e, hc] at hm
        cases hm
      refine ⟨hkc, ?_⟩
      by_cases hcd : cd > 0
      · simp only [if_pos hcd]
        rw [mapGet_mapSet_ne _ _ _ _ (fun e => hkc e.symm)]
        exact hc
      · simp only [if_neg hcd]
        exact hc
    | some t =>
      by_cases hge : t ≤ now
      · rw [getNextKeyScan_select_stale now cd f st t hm hge] at hsome
        rw [Option.some.injEq, Prod.mk.injEq] at hsome
        obtain ⟨hk, hst'⟩ := hsome
        subst hk
        subst hst'
        have hkc : st.keys.getD st.currentIndex "" ≠ c := by
          intro e
          rw [e, hc] at hm
          rw [Option.some.injEq] at hm
          omega
        refine ⟨hkc, ?_⟩
        by_cases hcd : cd > 0
        · simp only [if_pos hcd]
          rw [mapGet_mapSet_ne _ _ _ _ (fun e => hkc e.symm),
            mapGet_mapDelete_ne _ _ _ (fun e => hkc e.symm)]
          exact hc
        · simp only [if_neg hcd]
          rw [mapGet_mapDelete_ne _ _ _ (fun e => hkc e.symm)]
          exact hc
      · have hlt : now < t := Nat.lt_of_not_le hge
        rw [getNextKeyScan_skip now cd f st t hm hlt] at hsome
        exact ih ⟨st.keys, (st.currentIndex + 1) % st.keys.length, st.disabledUntil⟩
          k st' hc hT hsome

/-- Acquire (with its sleep-and-retry recursion) never yields a credential
before its penalty entry's resume time: any result produced at an instant
still before the entry is a different key. -/
theorem getNextKey_disabled_avoided (cd : Nat) (c : String) (T : Nat) :
    ∀ (rounds now : Nat) (st : KMState) (now' : Nat) (k : String) (st' : KMState),
      mapGet st.disabledUntil c = some T →
      getNextKey cd rounds now st = some (now', k, st') →
      now' < T → k ≠ c := by
  intro rounds
  induction rounds with
  | zero => intro now st now' k st' _ h; cases h
  | succ r ih =>
    intro now st now' k st' hc hres hlt
    rw [getNextKey] at hres
    cases hscan : getNextKeyScan now cd st.keys.length st with
    | some p =>
      obtain ⟨pk, pst⟩ := p
      rw [hscan] at hres
      rw [Option.some.injEq, Prod.mk.injEq, Prod.mk.injEq] at hres
      obtain ⟨hn, hk, hst⟩ := hres
      subst hn
      subst hk
      exact (scan_disabled_avoided now cd c T st.keys.length st pk pst hc hlt hscan).1
    | none =>
      rw [hscan] at hres
      exact ih _ st now' k st' hc hres hlt

/-! ## Claim C3: Penalize entry resolution -/

theorem resolve_eq_resumeAtClaim (now cd : Nat) (hint : Option Nat) :
    resolveDisabledUntil now cd hint = resumeAtClaim now cd hint := by
  cases hint with
  | none => rfl
  | some r =>
    by_cases hr : r = 0
    · subst hr
      simp [resolveDisabledUntil, resumeAtClaim]
    · simp [resolveDisabledUntil, resumeAtClaim, hr]

/-- C3: `Penalize(c, hint)` overwrites the penalty entry for `c` with a
resume time computed as the claim states — absent hint gives exactly
`now + defaultCooldownSeconds`; a present hint is classified as
milliseconds when it exceeds the current epoch-in-milliseconds, as
milliseconds again in the intermediate range above the current
epoch-in-seconds, and as seconds (×1000) below that; a resolved instant
not strictly in the future falls back to the default cooldown.  Entries of
other credentials are untouched. -/
theorem disableKey_entry_spec (now cd : Nat) (key : String) (hint : Option Nat)
    (st : KMState) :
    mapGet (disableKey now cd key hint st).disabledUntil key =
      some (resumeAtClaim now cd hint) ∧
    ∀ k', k' ≠ key →
      mapGet (disableKey now cd key hint st).disabledUntil k' =
        mapGet st.disabledUntil k' := by
  constructor
  · rw [disableKey]
    simp only
    rw [mapGet_mapSet_self, resolve_eq_resumeAtClaim]
  · intro k' hk'
    rw [disableKey]
    simp only
    rw [mapGet_mapSet_ne _ _ _ _ hk']

/-- Witness for C3 at a concrete state: penalizing `"a"` without a hint at
`now = 5` (cooldown 60 s) overwrites the stale entry of `"a"` with
`5 + 60000` and leaves `"b"`'s entry alone. -/
theorem disableKey_entry_spec_witness :
    mapGet (disableKey 5 60 "a" none ⟨["a", "b"], 0, [("a", 3), ("b", 9)]⟩).disabledUntil "a" =
      some 60005 ∧
    mapGet (disableKey 5 60 "a" none ⟨["a", "b"], 0, [("a", 3), ("b", 9)]⟩).disabledUntil "b" =
      some 9 := by
  have h := disableKey_entry_spec 5 60 "a" none ⟨["a", "b"], 0, [("a", 3), ("b", 9)]⟩
  exact ⟨h.1, h.2 "b" (by decide)⟩

/-! ## Claim C6: the extractor on a signal-free body -/

/-- C6: the extractor never throws (it is a total function) and returns
the no-signal result for any unparsable body and for any parsed body
without an `error` field. -/
theorem checkRateLimit_no_signal :
    checkRateLimit none = (false, none) ∧
    ∀ j : Json, jsGet j "error" = none → checkRateLimit (some j) = (false, none) := by
  refine ⟨rfl, ?_⟩
  intro j h
  simp only [checkRateLimit, h]

/-- Witness for C6: a non-object body and an object without an error field. -/
theorem checkRateLimit_no_signal_witness :
    checkRateLimit (some (Json.obj [("ok", Json.bool true)])) = (false, none) ∧
    checkRateLimit (some (Json.str "not an object")) = (false, none) := by
  constructor
  · exact checkRateLimit_no_signal.2 (Json.obj [("ok", Json.bool true)]) rfl
  · exact checkRateLimit_no_signal.2 (Json.str "not an object") rfl

/-! ## Claim C7: limited verdict and resumeAt recovery -/

/-- C7 counterexample: on a rate-limited body whose first present reset
header is the number `0` (followed by `30`), the code returns resume time
`30` — the falsy `0` is skipped by the `||` chain and the value is
`parseInt`ed — whereas the claim's "first present raw value" is `0`. -/
theorem checkRateLimit_counterexample :
    checkRateLimit (some c7Body) = (true, some 30) ∧
    claimResumeAtRaw c7Body = some (Json.num 0) := by
  exact ⟨rfl, rfl⟩

/-- C7 (amended): the limited verdict is as claimed (error object with
rate-limit type/code, or error string containing a rate-limit substring),
and the recovered resumeAt is the `parseInt` of the first *JS-truthy* raw
value among the fixed header names — error-object header map first, then
top-level — with present-but-falsy values skipped. -/
theorem checkRateLimit_limited_spec (j e : Json)
    (he : jsGet j "error" = some e) (ht : truthy e = true)
    (hrl : (isRateLimitObj e || isRateLimitStr e) = true) :
    checkRateLimit (some j) = (true, amendedResumeAt j e) := by
  simp only [checkRateLimit, he, ht, hrl, Bool.true_and, if_true]
  have hA : amendedResumeAt j e =
      (match (match (match jsGet e "headers" with
               | some hs => if truthy hs = true then rlHeaderChain hs else none
               | none => none) with
        | some v => some v
        | none =>
          match jsGet j "headers" with
          | some hs => if truthy hs = true then rlHeaderChain hs else none
          | none => none) with
      | some v => parseIntJS v
      | none => none) := rfl
  rw [hA]
  cases (match (match jsGet e "headers" with
         | some hs => if truthy hs = true then rlHeaderChain hs else none
         | none => none) with
    | some v => some v
    | none =>
      match jsGet j "headers" with
      | some hs => if truthy hs = true then rlHeaderChain hs else none
      | none => none) with
  | some v => rfl
  | none => rfl

/-- Witness for C7's amended theorem at the counterexample body. -/
theorem checkRateLimit_limited_spec_witness :
    checkRateLimit (some c7Body) = (true, amendedResumeAt c7Body c7Err) :=
  checkRateLimit_limited_spec c7Body c7Err rfl rfl rfl

/-! ## Claim C8: the free-model catalog filter -/

theorem isFreeModelBody_eq_allPricingZero (model : Json) :
    isFreeModelBody model = allPricingZero model := by
  unfold isFreeModelBody allPricingZero
  cases hm : jsGet model "pricing" with
  | none => rfl
  | some pricing =>
    cases pricing with
    | null => simp [truthy, pricingKeys, jsGet]
    | bool b =>
      cases b with
      | false => simp [truthy, pricingKeys, jsGet]
      | true => simp [truthy]
    | num n =>
      by_cases hn : n = 0
      · subst hn
        simp [truthy, pricingKeys, jsGet]
      · simp [truthy, hn]
    | str s =>
      by_cases hs : s = ""
      · subst hs
        simp [truthy, pricingKeys, jsGet]
      · simp [truthy, hs]
    | arr xs => simp [truthy, jsGet, pricingKeys]
    | obj fs => simp [truthy]

theorem isFreeModel_ne_null (model : Json) (h : model ≠ Json.null) :
    isFreeModel model = some (isFreeModelBody model) := by
  cases model with
  | null => exact absurd rfl h
  | bool b => rfl
  | num n => rfl
  | str s => rfl
  | arr xs => rfl
  | obj fs => rfl

/-- With no `null` descriptor the loop completes and builds exactly the
filter by the all-zero-pricing predicate. -/
theorem filterFreeModels_no_null :
    ∀ models : List Json, Json.null ∉ models →
      filterFreeModels models = some (models.filter allPricingZero) := by
  intro models
  induction models with
  | nil => intro _; rfl
  | cons model rest ih =>
    intro h
    have hm : model ≠ Json.null := by
      intro e
      apply h
      rw [e] at *
      exact List.mem_cons_self _ _
    have hrest : Json.null ∉ rest := fun hr => h (List.mem_cons_of_mem _ hr)
    rw [filterFreeModels, isFreeModel_ne_null model hm]
    simp only [ih hrest, List.filter_cons, isFreeModelBody_eq_allPricingZero]

/-- A `null` descriptor anywhere in the list aborts the loop with the
thrown TypeError. -/
theorem filterFreeModels_null :
    ∀ models : List Json, Json.null ∈ models → filterFreeModels models = none := by
  intro models
  induction models with
  | nil => intro h; cases h
  | cons model rest ih =>
    intro h
    by_cases hm : model = Json.null
    · subst hm
      rfl
    · have hr : Json.null ∈ rest := by
        rcases List.mem_cons.mp h with h1 | h1
        · exact absurd h1.symm hm
        · exact h1
      rw [filterFreeModels, isFreeModel_ne_null model hm]
      simp only [ih hr]

/-- C8 counterexample: on the body `{data:[allZeroModel, null]}` the claim
says exactly the all-zero descriptor is kept (the `null` one has no
all-zero pricing fields), but iterating the list makes `model.pricing`
throw on the `null` element, the `catch` fires, and the original body is
returned unchanged — which differs from the claimed filtered body. -/
theorem removePaidModels_null_counterexample :
    removePaidModels true (some c8NullExample) = some c8NullExample ∧
    [c8FreeModel, Json.null].filter allPricingZero = [c8FreeModel] ∧
    c8NullExample ≠ jsSet c8NullExample "data" (Json.arr [c8FreeModel]) := by
  refine ⟨rfl, rfl, ?_⟩
  intro h
  have h2 := congrArg (fun j => jsGet j "data") h
  simp only at h2
  rw [show jsGet c8NullExample "data" = some (Json.arr [c8FreeModel, Json.null]) from rfl,
    show jsGet (jsSet c8NullExample "data" (Json.arr [c8FreeModel])) "data" =
      some (Json.arr [c8FreeModel]) from rfl, Option.some.injEq] at h2
  injection h2 with h3
  have h4 := congrArg List.length h3
  simp at h4

/-- C8 (amended): with the free-only filter enabled, on a body whose `data`
field is a list of descriptors containing no `null`, the filter keeps
exactly the descriptors whose pricing fields are all zero and returns the
body unmodified when that would leave none; a `null` descriptor makes the
iteration throw (the error is caught) and the original body is returned
unmodified; on the §8 example only the first element is kept. -/
theorem removePaidModels_spec :
    (∀ (data : Json) (models : List Json),
      jsGet data "data" = some (Json.arr models) →
      (Json.null ∉ models →
        (models.filter allPricingZero ≠ [] →
          removePaidModels true (some data) =
            some (jsSet data "data" (Json.arr (models.filter allPricingZero)))) ∧
        (models.filter allPricingZero = [] →
          removePaidModels true (some data) = some data)) ∧
      (Json.null ∈ models → removePaidModels true (some data) = some data)) ∧
    removePaidModels true (some c8Example) =
      some (Json.obj [("data", Json.arr [c8FreeModel])]) := by
  constructor
  · intro data models hdata
    constructor
    · intro hnonull
      have hfilter := filterFreeModels_no_null models hnonull
      constructor
      · intro hne
        simp only [removePaidModels, Bool.not_true, Bool.false_eq_true, if_false, hdata,
          hfilter]
        rw [if_pos (List.length_pos.mpr hne)]
      · intro hnil
        simp only [removePaidModels, Bool.not_true, Bool.false_eq_true, if_false, hdata,
          hfilter, hnil]
        rfl
    · intro hnull
      have hfilter := filterFreeModels_null models hnull
      simp only [removePaidModels, Bool.not_true, Bool.false_eq_true, if_false, hdata,
        hfilter]
  · rfl

/-- Witness for C8 at the §8 example (no `null`: the paid descriptor is
dropped, the all-zero one kept) and at the null-containing body (original
body returned). -/
theorem removePaidModels_spec_witness :
    removePaidModels true (some c8Example) =
      some (jsSet c8Example "data"
        (Json.arr ([c8FreeModel, c8PaidModel].filter allPricingZero))) ∧
    removePaidModels true (some c8NullExample) = some c8NullExample := by
  constructor
  · refine ((removePaidModels_spec.1 c8Example [c8FreeModel, c8PaidModel] rfl).1 ?_).1 ?_
    · intro h
      rcases List.mem_cons.mp h with h1 | h1
      · exact Json.noConfusion h1
      · rcases List.mem_cons.mp h1 with h2 | h2
        · exact Json.noConfusion h2
        · cases h2
    · intro h
      rw [show [c8FreeModel, c8PaidModel].filter allPricingZero = [c8FreeModel] from rfl] at h
      cases h
  · exact (removePaidModels_spec.1 c8NullExample [c8FreeModel, Json.null] rfl).2
      (List.mem_cons_of_mem _ (List.mem_cons_self _ _))

/-! ## Claim C9: failed access verification leaves the pool untouched -/

/-- C9: on a non-public path whose access verification fails, the handler
answers with the unauthorized outcome (the 401 response) and the key-pool
state — cursor and penalty map — is returned unchanged; acquisition is
never reached. -/
theorem unauthorized_keeps_pool (accessKey : String) (publicEndpoints : List String)
    (path : String) (authorization : Option String) (now rounds : Nat)
    (st : KMState) (msg : String)
    (hpub : publicEndpoints.any (fun ep => strStartsWith ("/api/v1/" ++ path) ep) = false)
    (hver : verifyAccessKey accessKey authorization = Except.error msg) :
    handleAuthAndAcquire accessKey publicEndpoints path authorization now rounds st =
      (RouteOutcome.unauthorized msg, st) := by
  simp only [handleAuthAndAcquire, hpub, Bool.false_eq_true, if_false, hver]

/-- Witness for C9: a missing Authorization header on a completion path
with a configured access key. -/
theorem unauthorized_keeps_pool_witness :
    handleAuthAndAcquire "secret" ["/api/v1/models"] "chat/completions" none 0 1
      ⟨["k1", "k2"], 1, [("k1", 7)]⟩ =
      (RouteOutcome.unauthorized "缺少授權標頭", ⟨["k1", "k2"], 1, [("k1", 7)]⟩) :=
  unauthorized_keeps_pool "secret" ["/api/v1/models"] "chat/completions" none 0 1
    ⟨["k1", "k2"], 1, [("k1", 7)]⟩ "缺少授權標頭" (by decide) rfl

/-! ## Claim C10: empty configured access key admits everything -/

/-- C10: when the configured access key is the empty string (the
configuration default), verification succeeds for every header value —
absent, malformed, or arbitrary — without inspecting it, and the handler
never produces the unauthorized outcome. -/
theorem empty_access_key_admits_all :
    (∀ authorization : Option String,
      verifyAccessKey "" authorization = Except.ok true) ∧
    ∀ (publicEndpoints : List String) (path : String) (authorization : Option String)
      (now rounds : Nat) (st : KMState) (msg : String),
      (handleAuthAndAcquire "" publicEndpoints path authorization now rounds st).1 ≠
        RouteOutcome.unauthorized msg := by
  constructor
  · intro authorization
    rfl
  · intro pubs path auth now rounds st msg
    unfold handleAuthAndAcquire
    by_cases hpub : pubs.any (fun ep => strStartsWith ("/api/v1/" ++ path) ep) = true
    · simp only [hpub, if_true]
      intro h
      cases h
    · simp only [Bool.not_eq_true] at hpub
      simp only [hpub, Bool.false_eq_true, if_false]
      have hok : verifyAccessKey "" auth = Except.ok true := rfl
      rw [hok]
      cases hres : getNextKey 0 rounds now st with
      | none =>
        simp only
        intro h
        cases h
      | some r =>
        obtain ⟨rn, rk, rst⟩ := r
        simp only
        intro h
        cases h

/-- Witness for C10: a malformed header is accepted when no key is set. -/
theorem empty_access_key_admits_all_witness :
    verifyAccessKey "" (some "not-a-bearer") = Except.ok true ∧
    (handleAuthAndAcquire "" ["/api/v1/models"] "chat/completions" (some "junk") 0 1
        ⟨["k"], 0, []⟩).1 ≠ RouteOutcome.unauthorized "缺少授權標頭" :=
  ⟨empty_access_key_admits_all.1 (some "not-a-bearer"),
   empty_access_key_admits_all.2 ["/api/v1/models"] "chat/completions" (some "junk") 0 1
     ⟨["k"], 0, []⟩ "缺少授權標頭"⟩

/-! ## Claim C5: the passthrough relay on a comment frame followed by a
data frame -/

/-- C5 (actual code behavior at the claim's input): the `'data'` handler
appends every chunk to the buffer *before* the comment check, so a comment
chunk is both forwarded immediately and left in the buffer, and is emitted
a second time when the buffer later drains (or flushes at `'end'`).  Fed
`":hi\n\na:1\n\n"` as one chunk, everything is written twice; fed as two
chunks, the comment frame is written twice and the data frame once —
contradicting the claimed exactly-once emission of each frame. -/
theorem relay_duplicates_comment_frame :
    relayRun [":hi\n\na:1\n\n"] = [":hi\n\na:1\n\n", ":hi\n\na:1\n\n"] ∧
    relayRun [":hi\n\n", "a:1\n\n"] = [":hi\n\n", ":hi\n\n", "a:1\n\n"] ∧
    relayRun [":hi\n\n", "a:1\n\n"] ≠ [":hi\n\n", "a:1\n\n"] := by
  refine ⟨by decide, by decide, by decide⟩

/-! ## Lemmas for the cycling and waiting behaviour -/

theorem isEligible_false_iff (now : Nat) (m : List (String × Nat)) (k : String) :
    isEligible now m k = false ↔ ∃ t, mapGet m k = some t ∧ now < t := by
  unfold isEligible
  cases h : mapGet m k with
  | none => simp
  | some t =>
    simp only [decide_eq_false_iff_not, Nat.not_le, Option.some.injEq]
    constructor
    · intro hlt
      exact ⟨t, rfl, hlt⟩
    · rintro ⟨t', ht', hlt⟩
      omega

theorem scan_some_of_eligible (now cd : Nat) (st : KMState)
    (hcur : st.currentIndex < st.keys.length) (j : Nat) (hj : j < st.keys.length)
    (helig : isEligible now st.disabledUntil (st.keys.getD j "") = true) :
    ∃ k st', getNextKeyScan now cd st.keys.length st = some (k, st') := by
  cases h : getNextKeyScan now cd st.keys.length st with
  | some p => exact ⟨p.1, p.2, rfl⟩
  | none =>
    have hf := scan_none_all_disabled now cd st hcur h j hj
    rw [helig] at hf
    cases hf

theorem scan_empty_penalty (now : Nat) (st : KMState) (hd : st.disabledUntil = [])
    (f : Nat) :
    getNextKeyScan now 0 (f + 1) st =
      some (st.keys.getD st.currentIndex "",
        ⟨st.keys, (st.currentIndex + 1) % st.keys.length, []⟩) := by
  have hm : mapGet st.disabledUntil (st.keys.getD st.currentIndex "") = none := by
    rw [hd]
    rfl
  rw [getNextKeyScan_select_fresh now 0 f st hm]
  rw [if_neg (by omega), hd]

theorem getNextKey_empty_penalty (now : Nat) (st : KMState)
    (hd : st.disabledUntil = []) (hN : 0 < st.keys.length) :
    getNextKey 0 1 now st =
      some (now, st.keys.getD st.currentIndex "",
        ⟨st.keys, (st.currentIndex + 1) % st.keys.length, []⟩) := by
  have hscan := scan_empty_penalty now st hd (st.keys.length - 1)
  have hf : st.keys.length - 1 + 1 = st.keys.length := by omega
  rw [hf] at hscan
  rw [show (1 : Nat) = 0 + 1 from rfl, getNextKey, hscan]

theorem acquireRun_empty_penalty (now : Nat) :
    ∀ (n : Nat) (st : KMState), st.disabledUntil = [] →
      st.currentIndex < st.keys.length →
      acquireRun now n st =
        ((List.range n).map
            (fun i => st.keys.getD ((st.currentIndex + i) % st.keys.length) ""),
          ⟨st.keys, (st.currentIndex + n) % st.keys.length, []⟩) := by
  intro n
  induction n with
  | zero =>
    intro st hd hcur
    simp only [acquireRun, List.range_zero, List.map_nil]
    obtain ⟨ks, ci, m⟩ := st
    simp only at hd hcur ⊢
    subst hd
    rw [Prod.mk.injEq]
    exact ⟨rfl, by rw [Nat.add_zero, Nat.mod_eq_of_lt hcur]⟩
  | succ n ih =>
    intro st hd hcur
    have hN : 0 < st.keys.length := Nat.lt_of_le_of_lt (Nat.zero_le _) hcur
    rw [acquireRun, getNextKey_empty_penalty now st hd hN]
    have ih1 := ih ⟨st.keys, (st.currentIndex + 1) % st.keys.length, []⟩ rfl
      (Nat.mod_lt _ hN)
    simp only at ih1
    simp only [ih1]
    rw [Prod.mk.injEq]
    constructor
    · rw [List.range_succ_eq_map, List.map_cons, List.map_map]
      congr 1
      · rw [Nat.add_zero, Nat.mod_eq_of_lt hcur]
      · apply List.map_congr_left
        intro i _
        simp only [Function.comp_apply]
        rw [Nat.mod_add_mod]
        have he : st.currentIndex + 1 + i = st.currentIndex + (i + 1) := by omega
        rw [he]
    · rw [Nat.mod_add_mod]
      have he : st.currentIndex + 1 + n = st.currentIndex + (n + 1) := by omega
      rw [he]

/-- Reading a list at `pool-size` successive indices (mod the size) starting
from an in-range cursor is the rotation of the list at the cursor. -/
theorem range_map_rotation (l : List String) (c : Nat) (hc : c < l.length) :
    (List.range l.length).map (fun i => l.getD ((c + i) % l.length) "") =
      l.drop c ++ l.take c := by
  have hlen : ((List.range l.length).map
      (fun i => l.getD ((c + i) % l.length) "")).length = (l.drop c ++ l.take c).length := by
    simp
    omega
  apply List.ext_getElem hlen
  intro i h1 h2
  rw [List.getElem_map, List.getElem_range]
  have hN : 0 < l.length := Nat.lt_of_le_of_lt (Nat.zero_le _) hc
  have hiN : i < l.length := by
    have := h1
    simpa using this
  by_cases hsplit : i < l.length - c
  · have hci : c + i < l.length := by omega
    rw [List.getElem_append_left (by simp; omega)]
    rw [List.getElem_drop]
    rw [Nat.mod_eq_of_lt hci]
    rw [List.getD_eq_getElem l "" hci]
  · have hge : l.length ≤ c + i := by omega
    have hlt2 : c + i < 2 * l.length := by omega
    have hmod : (c + i) % l.length = c + i - l.length := by
      rw [Nat.mod_eq_sub_mod hge, Nat.mod_eq_of_lt (by omega)]
    rw [List.getElem_append_right (by simp; omega)]
    rw [hmod]
    have hidx : c + i - l.length < l.length := by omega
    rw [List.getD_eq_getElem l "" hidx]
    rw [List.getElem_take]
    congr 1
    simp
    omega

/-! ## Claim C1: penalized credentials and their resume time -/

/-- C1 counterexample: with pool `["k0","k1"]`, cursor at `0`, after
`Penalize("k1", hint)` resolving to the future instant `T = 100`, the first
Acquire attempt made exactly at `T` returns `"k0"`, not the penalized
`"k1"` — the claim's "`c` is returned again on the first Acquire attempt
made at or after `T`" fails whenever another credential precedes `c` in
cursor order. -/
theorem first_acquire_at_resume_counterexample :
    (disableKey 0 60 "k1" (some 100) ⟨["k0", "k1"], 0, []⟩).disabledUntil =
      [("k1", 100)] ∧
    getNextKey 0 1 100 (disableKey 0 60 "k1" (some 100) ⟨["k0", "k1"], 0, []⟩) =
      some (100, "k0", ⟨["k0", "k1"], 1, [("k1", 100)]⟩) ∧
    "k0" ≠ "k1" := by
  refine ⟨rfl, rfl, by decide⟩

/-- C1 (amended): while a credential `c` carries a penalty entry with resume
time `T`, no Acquire — including across its sleep-and-retry rounds — ever
yields `c` at an instant before `T`; and from any instant at or after `T`,
the moment a rotation examines `c` as the candidate under the cursor it
selects and returns `c`. -/
theorem penalized_not_returned_until_resume (cd : Nat) (c : String) (T : Nat) :
    (∀ (rounds now now' : Nat) (st : KMState) (k : String) (st' : KMState),
      mapGet st.disabledUntil c = some T →
      getNextKey cd rounds now st = some (now', k, st') →
      now' < T → k ≠ c) ∧
    (∀ (now fuel : Nat) (st : KMState),
      st.keys.getD st.currentIndex "" = c →
      mapGet st.disabledUntil c = some T →
      T ≤ now →
      ∃ st', getNextKeyScan now cd (fuel + 1) st = some (c, st')) := by
  constructor
  · intro rounds now now' st k st' hc hres hlt
    exact getNextKey_disabled_avoided cd c T rounds now st now' k st' hc hres hlt
  · intro now fuel st hk hc hT
    rw [← hk] at hc
    refine ⟨⟨st.keys, (st.currentIndex + 1) % st.keys.length,
      if cd > 0 then
        mapSet (mapDelete st.disabledUntil (st.keys.getD st.currentIndex ""))
          (st.keys.getD st.currentIndex "") (now + cd * 1000)
      else mapDelete st.disabledUntil (st.keys.getD st.currentIndex "")⟩, ?_⟩
    rw [getNextKeyScan_select_stale now cd fuel st T hc hT, hk]

/-- Witness for the amended C1: in the two-key pool with `"k1"` penalized
until `100`, an Acquire completing at `50` cannot have returned `"k1"` (it
returns `"k0"`), and at `100` the rotation that examines `"k1"` returns it. -/
theorem penalized_not_returned_until_resume_witness :
    "k0" ≠ "k1" ∧
    ∃ st', getNextKeyScan 100 0 2 ⟨["k0", "k1"], 1, [("k1", 100)]⟩ =
      some ("k1", st') :=
  ⟨(penalized_not_returned_until_resume 0 "k1" 100).1 1 50 50
      ⟨["k0", "k1"], 0, [("k1", 100)]⟩ "k0" ⟨["k0", "k1"], 1, [("k1", 100)]⟩
      rfl rfl (by decide),
   (penalized_not_returned_until_resume 0 "k1" 100).2 100 1
      ⟨["k0", "k1"], 1, [("k1", 100)]⟩ rfl rfl (by decide)⟩

/-! ## Claim C2: Acquire cycles through the whole pool -/

/-- C2: from any penalty-free state, a run of `pool-size` Acquire calls
returns the pool rotated at the cursor — every credential slot exactly once
before any repeats; and in any rotation (penalties or not), the selected
key lies `m` examined-and-skipped candidates past the entry cursor with the
cursor advanced one step per examined candidate, chosen or not. -/
theorem acquire_cycles_through_pool (st : KMState) (now : Nat)
    (hne : st.keys ≠ []) (hcur : st.currentIndex < st.keys.length)
    (hd : st.disabledUntil = []) :
    (acquireRun now st.keys.length st).1 =
      st.keys.drop st.currentIndex ++ st.keys.take st.currentIndex ∧
    (∀ (now2 cd fuel : Nat) (st2 : KMState) (k : String) (st2' : KMState),
      st2.currentIndex < st2.keys.length →
      getNextKeyScan now2 cd fuel st2 = some (k, st2') →
      ∃ m, m < fuel ∧
        k = st2.keys.getD ((st2.currentIndex + m) % st2.keys.length) "" ∧
        st2'.currentIndex = (st2.currentIndex + m + 1) % st2.keys.length) := by
  constructor
  · rw [acquireRun_empty_penalty now st.keys.length st hd hcur]
    exact range_map_rotation st.keys st.currentIndex hcur
  · intro now2 cd fuel st2 k st2' hcur2 hsome
    exact (scan_some_spec now2 cd fuel st2 k st2' hcur2 hsome).2.2.2

/-- Witness for C2: three Acquire calls on the penalty-free pool
`["a","b","c"]` with cursor `1` return `["b","c","a"]`, and a concrete
rotation instantiates the cursor-advance existential. -/
theorem acquire_cycles_through_pool_witness :
    (acquireRun 7 3 ⟨["a", "b", "c"], 1, []⟩).1 = ["b", "c", "a"] ∧
    ∃ m, m < 3 ∧
      "b" = (["a", "b", "c"] : List String).getD ((1 + m) % 3) "" ∧
      (2 : Nat) = (1 + m + 1) % 3 := by
  have h := acquire_cycles_through_pool ⟨["a", "b", "c"], 1, []⟩ 7
    (by decide) (by decide) rfl
  refine ⟨h.1, ?_⟩
  have h2 := h.2 7 0 3 ⟨["a", "b", "c"], 1, []⟩ "b" ⟨["a", "b", "c"], 2, []⟩
    (by decide) rfl
  simpa using h2

/-! ## Claim C4: when every credential is ineligible -/

/-- C4: when a full rotation finds every credential penalized into the
future, Acquire computes the soonest resume instant (so it waits exactly
`min(resumeAt) − now`, which is positive), re-runs the rotation at that
instant, and terminates by returning some credential of the pool that is
eligible then — it never produces an error. -/
theorem all_disabled_wait_then_acquire (st : KMState) (now cd : Nat)
    (hcur : st.currentIndex < st.keys.length)
    (hdk : DistinctKeys st.disabledUntil)
    (hmem : ∀ p ∈ st.disabledUntil, p.1 ∈ st.keys)
    (hbound : ∀ p ∈ st.disabledUntil, p.2 ≤ FAR_FUTURE)
    (hnone : getNextKeyScan now cd st.keys.length st = none) :
    now < minResume st.disabledUntil ∧
    ∃ k st', getNextKey cd 2 now st = some (minResume st.disabledUntil, k, st') ∧
      k ∈ st.keys ∧
      isEligible (minResume st.disabledUntil) st.disabledUntil k = true := by
  have hN : 0 < st.keys.length := Nat.lt_of_le_of_lt (Nat.zero_le _) hcur
  have hall := scan_none_all_disabled now cd st hcur hnone
  have hfut : ∀ p ∈ st.disabledUntil, now < p.2 := by
    intro p hp
    obtain ⟨j, hj, hkeq⟩ := List.mem_iff_getElem.mp (hmem p hp)
    have hje := hall j hj
    rw [List.getD_eq_getElem?_getD, List.getElem?_eq_getElem hj, Option.getD_some,
      hkeq] at hje
    obtain ⟨t, hmt, hnt⟩ := (isEligible_false_iff now st.disabledUntil p.1).mp hje
    have hself := mapGet_of_mem_distinct st.disabledUntil p hdk hp
    rw [hself, Option.some.injEq] at hmt
    omega
  have hne : st.disabledUntil ≠ [] := by
    intro he
    have hce := hall st.currentIndex hcur
    rw [he] at hce
    simp [isEligible, mapGet] at hce
  obtain ⟨q, hq, hmin⟩ := minResume_attained st.disabledUntil hne hbound
  have hnowmin : now < minResume st.disabledUntil := by
    rw [hmin]
    exact hfut q hq
  refine ⟨hnowmin, ?_⟩
  obtain ⟨j, hj, hkeq⟩ := List.mem_iff_getElem.mp (hmem q hq)
  have helig : isEligible (minResume st.disabledUntil) st.disabledUntil
      (st.keys.getD j "") = true := by
    rw [List.getD_eq_getElem?_getD, List.getElem?_eq_getElem hj, Option.getD_some,
      hkeq]
    unfold isEligible
    rw [mapGet_of_mem_distinct st.disabledUntil q hdk hq]
    simp [hmin]
  obtain ⟨k, st', hscan2⟩ :=
    scan_some_of_eligible (minResume st.disabledUntil) cd st hcur j hj helig
  have hprops := scan_some_spec (minResume st.disabledUntil) cd st.keys.length st
    k st' hcur hscan2
  refine ⟨k, st', ?_, hprops.1, hprops.2.1⟩
  rw [show (2 : Nat) = 1 + 1 from rfl, getNextKey, hnone]
  show getNextKey cd 1 (now + (minResume st.disabledUntil - now)) st =
    some (minResume st.disabledUntil, k, st')
  have harith : now + (minResume st.disabledUntil - now) = minResume st.disabledUntil := by
    omega
  rw [harith, show (1 : Nat) = 0 + 1 from rfl, getNextKey, hscan2]

/-- Witness for C4: with both keys of `["a","b"]` penalized (to `200` and
`150`) at `now = 100`, Acquire waits until `150` and then succeeds. -/
theorem all_disabled_wait_then_acquire_witness :
    100 < minResume [("a", 200), ("b", 150)] ∧
    ∃ k st', getNextKey 0 2 100 ⟨["a", "b"], 0, [("a", 200), ("b", 150)]⟩ =
      some (minResume [("a", 200), ("b", 150)], k, st') ∧
      k ∈ (["a", "b"] : List String) ∧
      isEligible (minResume [("a", 200), ("b", 150)]) [("a", 200), ("b", 150)] k = true :=
  all_disabled_wait_then_acquire ⟨["a", "b"], 0, [("a", 200), ("b", 150)]⟩ 100 0
    (by decide)
    (by constructor
        · intro p hp
          simp only [List.mem_singleton] at hp
          subst hp
          decide
        · constructor
          · intro p hp
            cases hp
          · constructor)
    (by intro p hp
        rcases List.mem_cons.mp hp with h | h
        · subst h; decide
        · rcases List.mem_cons.mp h with h2 | h2
          · subst h2; decide
          · cases h2)
    (by intro p hp
        rcases List.mem_cons.mp hp with h | h
        · subst h; decide
        · rcases List.mem_cons.mp h with h2 | h2
          · subst h2; decide
          · cases h2)
    rfl
